import Mathlib

/-!
Shallow embedding of `src/main.rs` of the wordle word-puzzle assistant,
together with theorems settling the specification claims about it.

Words and pattern strings are modelled as `List Char`; positions are the
character indices produced by `char_indices` (which coincide with byte
offsets on the ASCII data this tool operates on).  Machine integers
(`usize`) are modelled as `Nat`, with the 64-bit bound made explicit at
the one point where it is observable (`str::parse::<usize>`), and the
`isize` drain budget is modelled as `Int`.
-/

namespace Wordle

/-- Model of Rust `char::is_ascii_alphabetic`: an ASCII letter `a..z` or `A..Z`. -/
def isAsciiAlpha (c : Char) : Bool :=
  (97 ≤ c.toNat && c.toNat ≤ 122) || (65 ≤ c.toNat && c.toNat ≤ 90)

/-- Model of Rust `char::to_ascii_lowercase`: shift `A..Z` down into `a..z`. -/
def asciiLower (c : Char) : Char :=
  if 65 ≤ c.toNat && c.toNat ≤ 90 then Char.ofNat (c.toNat + 32) else c

/-- The letter-to-index computation `c.to_ascii_lowercase() as usize - 'a' as usize`
(as in `CharFreq::get_freq` / `WordScore::calc_score`), carried out in `Int` so
that the underflow of the machine subtraction is visible as a negative value. -/
def letterIdx (c : Char) : Int :=
  ((asciiLower c).toNat : Int) - 97

/-- The same letter-to-index computation on `Nat`; it agrees with `letterIdx`
exactly on the characters for which the source's unchecked indexing is safe. -/
def letterIdxNat (c : Char) : Nat :=
  (asciiLower c).toNat - 97

/-- The index-to-letter computation `(i as u8 + b'a') as char` from `CharFreq::to_vec`. -/
def charOfIdx (i : Nat) : Char :=
  Char.ofNat (i + 97)

/-- Rust struct `CharPosition { char, position }`. -/
structure CharPosition where
  char : Char
  position : Nat
deriving DecidableEq, Repr

/-- Rust struct `Filter { length, ignore_chars, char_positions, different_char_positions }`. -/
structure Filter where
  length : Nat
  ignore_chars : List Char
  char_positions : List CharPosition
  different_char_positions : List CharPosition
deriving DecidableEq, Repr

/-- Model of `Filter::new`: the word length is fixed at 5. -/
def Filter.new (ignore_chars : List Char) (char_positions : List CharPosition)
    (different_char_positions : List CharPosition) : Filter :=
  ⟨5, ignore_chars, char_positions, different_char_positions⟩

/-- Model of `Filter::accept_char_position`: every `char_positions` entry must match the
word's character at its position, and no `different_char_positions` entry may. -/
def Filter.accept_char_position (f : Filter) (word : List Char) : Bool :=
  (f.char_positions.all fun cp =>
    match word[cp.position]? with
    | some c => c == cp.char
    | none => false)
  &&
  (f.different_char_positions.all fun cp =>
    match word[cp.position]? with
    | some c => c != cp.char
    | none => true)

/-- Model of `Filter::accept_char`: every `different_char_positions` letter must occur
somewhere in the word. -/
def Filter.accept_char (f : Filter) (word : List Char) : Bool :=
  f.different_char_positions.all fun cp => word.contains cp.char

/-- Model of `Filter::accept`: length check, then excluded letters, then positional
rules, then mandatory letter presence. -/
def Filter.accept (f : Filter) (word : List Char) : Bool :=
  if word.length != f.length then false
  else if f.ignore_chars.any (fun c => word.contains c) then false
  else if !f.accept_char_position word then false
  else if !f.accept_char word then false
  else true

/-- The common pattern loop of `parse_char_position` / `parse_different_positions`:
walk the pattern, skip `*`, and record every other character with its index. -/
def patternPositionsAux : List Char → Nat → List CharPosition
  | [], _ => []
  | c :: rest, pos =>
    if c == '*' then patternPositionsAux rest (pos + 1)
    else ⟨c, pos⟩ :: patternPositionsAux rest (pos + 1)

/-- Model of `parse_char_position`: a pattern whose length is not 5 contributes nothing. -/
def parse_char_position (target : List Char) : List CharPosition :=
  if target.length != 5 then [] else patternPositionsAux target 0

/-- Model of `parse_ignore_chars`: a string explodes into its characters. -/
def parse_ignore_chars (ignore_chars : List Char) : List Char :=
  ignore_chars

/-- Model of `parse_different_positions`: per-pattern logic of `parse_char_position`,
applied to each pattern and concatenated; wrong-length patterns are skipped. -/
def parse_different_positions : List (List Char) → List CharPosition
  | [] => []
  | t :: rest =>
    (if t.length != 5 then [] else patternPositionsAux t 0) ++ parse_different_positions rest

/-- Rust struct `CharFreq { inner: Vec<usize> }` (26 per-letter counts). -/
structure CharFreq where
  inner : List Nat
deriving DecidableEq, Repr

/-- Model of `CharFreq::new`: 26 zero counts. -/
def CharFreq.new : CharFreq :=
  ⟨List.replicate 26 0⟩

/-- Model of `CharFreq::add_char`: ignore non-ASCII-alphabetic input, else increment the
case-folded letter's count. -/
def CharFreq.add_char (f : CharFreq) (c : Char) : CharFreq :=
  if !isAsciiAlpha c then f
  else ⟨f.inner.set (letterIdxNat c) (f.inner.getD (letterIdxNat c) 0 + 1)⟩

/-- Model of `CharFreq::get_freq`: the count at the case-folded letter's index. -/
def CharFreq.get_freq (f : CharFreq) (c : Char) : Nat :=
  f.inner.getD (letterIdxNat c) 0

/-- Rust `usize::cmp`. -/
def natCmp (a b : Nat) : Ordering :=
  if a < b then .lt else if b < a then .gt else .eq

/-- The comparator of `CharFreq::to_vec`:
`count1.cmp(&count2).then_with(|| c1.cmp(c2).reverse()).reverse()` on
(index, count) pairs. -/
def entryCmp (a b : Nat × Nat) : Ordering :=
  ((natCmp a.2 b.2).then ((natCmp a.1 b.1).swap)).swap

/-- The sorted (index, count) listing inside `CharFreq::to_vec`
(`sort_by` with the comparator above). -/
def CharFreq.toVecEntries (f : CharFreq) : List (Nat × Nat) :=
  List.insertionSort (fun a b => entryCmp a b ≠ Ordering.gt) f.inner.enum

/-- Model of `CharFreq::to_vec`: the sorted listing with indices turned back into letters. -/
def CharFreq.to_vec (f : CharFreq) : List (Char × Nat) :=
  f.toVecEntries.map fun p => (charOfIdx p.1, p.2)

/-- Decimal digit to character, as in Rust's `Display` for unsigned integers. -/
def digitChar (d : Nat) : Char :=
  Char.ofNat (48 + d)

/-- The decimal rendering `format!("{}", n)` of a `usize`. -/
def natDigits (n : Nat) : List Char :=
  if n = 0 then ['0'] else (Nat.digits 10 n).reverse.map digitChar

/-- Numeric value of a string of decimal digits. -/
def decodeDigits (ds : List Char) : Nat :=
  ds.foldl (fun acc c => acc * 10 + (c.toNat - 48)) 0

/-- One output line `format!("{}:{}", c, count)` of the `analyse` command. -/
def encodeLine (p : Char × Nat) : List Char :=
  p.1 :: ':' :: natDigits p.2

/-- The full frequency file written by `analyse`: one line per `to_vec` entry. -/
def serializeLines (f : CharFreq) : List (List Char) :=
  f.to_vec.map encodeLine

/-- The character class `[a-z]`. -/
def isLowerAlpha (c : Char) : Bool :=
  97 ≤ c.toNat && c.toNat ≤ 122

/-- Code-point ranges of the Unicode general category `Nd` (decimal digit,
Unicode 14.0): the character class the regex crate's Unicode-aware `\d`
matches. -/
def ndRanges : List (Nat × Nat) :=
  [(48, 57), (1632, 1641), (1776, 1785), (1984, 1993),
   (2406, 2415), (2534, 2543), (2662, 2671), (2790, 2799),
   (2918, 2927), (3046, 3055), (3174, 3183), (3302, 3311),
   (3430, 3439), (3558, 3567), (3664, 3673), (3792, 3801),
   (3872, 3881), (4160, 4169), (4240, 4249), (6112, 6121),
   (6160, 6169), (6470, 6479), (6608, 6617), (6784, 6793),
   (6800, 6809), (6992, 7001), (7088, 7097), (7232, 7241),
   (7248, 7257), (42528, 42537), (43216, 43225), (43264, 43273),
   (43472, 43481), (43504, 43513), (43600, 43609), (44016, 44025),
   (65296, 65305), (66720, 66729), (68912, 68921), (69734, 69743),
   (69872, 69881), (69942, 69951), (70096, 70105), (70384, 70393),
   (70736, 70745), (70864, 70873), (71248, 71257), (71360, 71369),
   (71472, 71481), (71904, 71913), (72016, 72025), (72784, 72793),
   (73040, 73049), (73120, 73129), (92768, 92777), (92864, 92873),
   (93008, 93017), (120782, 120831), (123200, 123209), (123632, 123641),
   (125264, 125273), (130032, 130041)]

/-- Membership in the regex crate's `\d` class, i.e. `\p{Nd}`. -/
def isNd (c : Char) : Bool :=
  ndRanges.any fun r => r.1 ≤ c.toNat && c.toNat ≤ r.2

/-- The anchored regex `^([a-z]):(\d+)$` of `CharFreq::from_file`, returning
the two capture groups; `\d` is the Unicode-aware digit class `\p{Nd}`. -/
def regexMatch (line : List Char) : Option (Char × List Char) :=
  match line with
  | c :: d :: ds =>
    if isLowerAlpha c && (d == ':') && !ds.isEmpty && ds.all isNd then
      some (c, ds)
    else none
  | _ => none

/-- Rust `str::parse::<usize>` on a nonempty string of Unicode digits: the
decimal value when every digit is an ASCII digit and the value fits in 64
bits; `none` models both parse errors (`InvalidDigit` on a non-ASCII digit,
`PosOverflow` past `usize::MAX`). -/
def parseUsize (ds : List Char) : Option Nat :=
  if ds.all Char.isDigit = true ∧ decodeDigits ds < 2 ^ 64 then
    some (decodeDigits ds)
  else none

/-- One line of the `CharFreq::from_file` loop: a non-matching line is skipped,
a matching line overwrites the captured letter's count with the parsed count;
`none` models the `expect` panic when the count does not parse. -/
def loadLine (f : CharFreq) (line : List Char) : Option CharFreq :=
  match regexMatch line with
  | none => some f
  | some (c, ds) =>
    match parseUsize ds with
    | none => none
    | some n => some ⟨f.inner.set (c.toNat - 97) n⟩

/-- Model of `CharFreq::from_file`, over the file's lines: start from `CharFreq::new`
and process every line in order. -/
def CharFreq.from_lines (lines : List (List Char)) : Option CharFreq :=
  lines.foldlM loadLine CharFreq.new

/-- Rust struct `WordScore { word, score }` (the shared `CharFreq` reference is
passed explicitly instead of stored). -/
structure WordScore where
  word : List Char
  score : Nat
deriving DecidableEq, Repr

/-- Model of `WordScore::calc_score`: collect the distinct letter indices of the word
(the `BitSet`), then sum the frequency at each collected index. -/
def calc_score (freqs : CharFreq) (word : List Char) : Nat :=
  (((word.map letterIdxNat).dedup).map fun i => freqs.inner.getD i 0).sum

/-- Model of `WordScore::new`: the score is computed once at construction. -/
def WordScore.new (word : List Char) (freqs : CharFreq) : WordScore :=
  ⟨word, calc_score freqs word⟩

/-- Rust `char` comparison (by code point). -/
def charCmp (a b : Char) : Ordering :=
  if a.toNat < b.toNat then .lt else if b.toNat < a.toNat then .gt else .eq

/-- Rust `String::cmp`: lexicographic comparison. -/
def listCmp : List Char → List Char → Ordering
  | [], [] => .eq
  | [], _ :: _ => .lt
  | _ :: _, [] => .gt
  | a :: as1, b :: bs1 => (charCmp a b).then (listCmp as1 bs1)

/-- Model of `impl Ord for WordScore`:
`self.score.cmp(&other.score).then_with(|| self.word.cmp(&other.word).reverse())`. -/
def wsCmp (a b : WordScore) : Ordering :=
  (natCmp a.score b.score).then ((listCmp a.word b.word).swap)

/-- Draining a `BinaryHeap<WordScore>` by repeated `pop` yields its elements in
descending `wsCmp` order; modelled as sorting by the dual of the order. -/
def heapDrain (l : List WordScore) : List WordScore :=
  List.insertionSort (fun a b => wsCmp a b ≠ Ordering.lt) l

/-- The drain loop of the `score_sort` branch of `main`: pop while the `isize`
budget `k` is still positive, emitting each popped word. -/
def emitLoop : Int → List WordScore → List (List Char)
  | _, [] => []
  | k, ws :: rest => if k ≤ 0 then [] else ws.word :: emitLoop (k - 1) rest

/-- The full `score_sort` output for requested count `K` (a `usize`) and
collected scored words `l`. -/
def scoreSortOutput (K : Nat) (l : List WordScore) : List (List Char) :=
  emitLoop (K : Int) (heapDrain l)

/-- The frequency table built in the repository's own tests
(three `a`, one `b`, one `c`). -/
def freqABC : CharFreq :=
  ⟨3 :: 1 :: 1 :: List.replicate 23 0⟩

/-! ### Helper lemmas -/

lemma char_toNat_ofNat {n : Nat} (h : n < 55296) : (Char.ofNat n).toNat = n := by
  unfold Char.ofNat
  rw [dif_pos (Or.inl h)]
  rfl

lemma match_req_iff (w : List Char) (p : CharPosition) :
    (match w[p.position]? with
      | some c => c == p.char
      | none => false) = true ↔ w[p.position]? = some p.char := by
  cases hw : w[p.position]? with
  | none => simp
  | some c => simp

lemma match_forb_iff (w : List Char) (p : CharPosition) :
    (match w[p.position]? with
      | some c => c != p.char
      | none => true) = true ↔ ¬(w[p.position]? = some p.char) := by
  cases hw : w[p.position]? with
  | none => simp
  | some c => simp

lemma accept_char_position_iff (f : Filter) (w : List Char) :
    f.accept_char_position w = true ↔
      ((∀ p ∈ f.char_positions, w[p.position]? = some p.char) ∧
       (∀ p ∈ f.different_char_positions, ¬(w[p.position]? = some p.char))) := by
  unfold Filter.accept_char_position
  rw [Bool.and_eq_true, List.all_eq_true, List.all_eq_true]
  constructor
  · rintro ⟨h1, h2⟩
    exact ⟨fun p hp => (match_req_iff w p).mp (h1 p hp),
           fun p hp => (match_forb_iff w p).mp (h2 p hp)⟩
  · rintro ⟨h1, h2⟩
    exact ⟨fun p hp => (match_req_iff w p).mpr (h1 p hp),
           fun p hp => (match_forb_iff w p).mpr (h2 p hp)⟩

lemma accept_char_iff (f : Filter) (w : List Char) :
    f.accept_char w = true ↔ ∀ p ∈ f.different_char_positions, p.char ∈ w := by
  unfold Filter.accept_char
  rw [List.all_eq_true]
  exact forall_congr' fun p => imp_congr_right fun _ => List.elem_iff

lemma accept_true_iff (f : Filter) (w : List Char) :
    f.accept w = true ↔
      (w.length = f.length ∧ (∀ c ∈ f.ignore_chars, c ∉ w) ∧
        f.accept_char_position w = true ∧ f.accept_char w = true) := by
  unfold Filter.accept
  constructor
  · intro h
    by_cases h1 : (w.length != f.length) = true
    · rw [if_pos h1] at h; exact absurd h Bool.false_ne_true
    rw [if_neg h1] at h
    by_cases h2 : (f.ignore_chars.any fun c => w.contains c) = true
    · rw [if_pos h2] at h; exact absurd h Bool.false_ne_true
    rw [if_neg h2] at h
    by_cases h3 : (!f.accept_char_position w) = true
    · rw [if_pos h3] at h; exact absurd h Bool.false_ne_true
    rw [if_neg h3] at h
    by_cases h4 : (!f.accept_char w) = true
    · rw [if_pos h4] at h; exact absurd h Bool.false_ne_true
    refine ⟨by simpa using h1, ?_, by simpa using h3, by simpa using h4⟩
    intro c hc hcw
    exact h2 (List.any_eq_true.mpr ⟨c, hc, List.elem_iff.mpr hcw⟩)
  · rintro ⟨h1, h2, h3, h4⟩
    have hb1 : (w.length != f.length) = false := by simp [h1]
    have hb2 : (f.ignore_chars.any fun c => w.contains c) = false := by
      cases hany : (f.ignore_chars.any fun c => w.contains c) with
      | false => rfl
      | true =>
        obtain ⟨c, hc, hcw⟩ := List.any_eq_true.mp hany
        exact absurd (List.elem_iff.mp hcw) (h2 c hc)
    rw [hb1, hb2, h3, h4]
    rfl

/-! ### C1: the accept contract of the filter -/

/-- Claim C1: `Filter.accept(word)` holds iff the word has length 5, contains
no excluded letter, matches every required position, mismatches every
forbidden position, and contains every forbidden-position letter somewhere;
in particular any word whose length is not 5 is rejected outright. -/
theorem claim_C1 (ig : List Char) (cp dcp : List CharPosition) (w : List Char) :
    ((Filter.new ig cp dcp).accept w = true ↔
      (w.length = 5 ∧ (∀ c ∈ ig, c ∉ w) ∧
        (∀ p ∈ cp, w[p.position]? = some p.char) ∧
        (∀ p ∈ dcp, ¬(w[p.position]? = some p.char)) ∧
        (∀ p ∈ dcp, p.char ∈ w))) ∧
    (w.length ≠ 5 → (Filter.new ig cp dcp).accept w = false) := by
  have hiff := accept_true_iff (Filter.new ig cp dcp) w
  rw [accept_char_position_iff, accept_char_iff] at hiff
  constructor
  · rw [hiff]
    unfold Filter.new
    tauto
  · intro hlen
    cases ha : (Filter.new ig cp dcp).accept w with
    | false => rfl
    | true => exact absurd (hiff.mp ha).1 hlen

theorem claim_C1_witness :
    (Filter.new ['a', 'b', 'c'] [] []).accept ['w', 'o', 'r', 'd'] = false ∧
    (Filter.new ['a', 'b', 'c'] [] []).accept ['w', 'r', 'i', 't', 'e'] = true :=
  ⟨(claim_C1 ['a', 'b', 'c'] [] [] ['w', 'o', 'r', 'd']).2 (by decide),
   (claim_C1 ['a', 'b', 'c'] [] [] ['w', 'r', 'i', 't', 'e']).1.mpr (by decide)⟩

/-! ### Pattern parsing lemmas, C8 and C9 -/

lemma mem_patternPositionsAux (cp : CharPosition) :
    ∀ (t : List Char) (n : Nat),
      cp ∈ patternPositionsAux t n ↔
        (n ≤ cp.position ∧ t[cp.position - n]? = some cp.char ∧ cp.char ≠ '*') := by
  intro t
  induction t with
  | nil => intro n; simp [patternPositionsAux]
  | cons c rest ih =>
    intro n
    unfold patternPositionsAux
    by_cases hc : c == '*'
    · rw [if_pos hc]
      have hc' : c = '*' := by simpa using hc
      subst hc'
      rw [ih (n + 1)]
      constructor
      · rintro ⟨hle, hget, hstar⟩
        refine ⟨by omega, ?_, hstar⟩
        have hpos : cp.position - n = (cp.position - (n + 1)) + 1 := by omega
        rw [hpos, List.getElem?_cons_succ]
        exact hget
      · rintro ⟨hle, hget, hstar⟩
        rcases Nat.lt_or_ge n cp.position with hlt | hge
        · refine ⟨by omega, ?_, hstar⟩
          have hpos : cp.position - n = (cp.position - (n + 1)) + 1 := by omega
          rw [hpos, List.getElem?_cons_succ] at hget
          exact hget
        · have hzero : cp.position - n = 0 := by omega
          rw [hzero] at hget
          simp at hget
          exact absurd hget.symm hstar
    · rw [if_neg hc]
      have hc' : ¬ c = '*' := by simpa using hc
      rw [List.mem_cons, ih (n + 1)]
      constructor
      · rintro (rfl | ⟨hle, hget, hstar⟩)
        · exact ⟨Nat.le_refl n, by simp, hc'⟩
        · refine ⟨by omega, ?_, hstar⟩
          have hpos : cp.position - n = (cp.position - (n + 1)) + 1 := by omega
          rw [hpos, List.getElem?_cons_succ]
          exact hget
      · rintro ⟨hle, hget, hstar⟩
        rcases Nat.lt_or_ge n cp.position with hlt | hge
        · right
          refine ⟨by omega, ?_, hstar⟩
          have hpos : cp.position - n = (cp.position - (n + 1)) + 1 := by omega
          rw [hpos, List.getElem?_cons_succ] at hget
          exact hget
        · left
          have hpos : cp.position = n := by omega
          have hzero : cp.position - n = 0 := by omega
          rw [hzero] at hget
          simp at hget
          cases cp with
          | mk ch pos => simp_all

lemma length_patternPositionsAux :
    ∀ (t : List Char) (n : Nat),
      (patternPositionsAux t n).length = (t.filter fun c => c != '*').length := by
  intro t
  induction t with
  | nil => intro n; simp [patternPositionsAux]
  | cons c rest ih =>
    intro n
    unfold patternPositionsAux
    by_cases hc : c == '*'
    · rw [if_pos hc]
      rw [ih]
      simp [List.filter_cons, bne, hc]
    · rw [if_neg hc]
      simp [List.filter_cons, bne, hc, ih]

lemma mem_parse_char_position {t : List Char} {cp : CharPosition}
    (h : cp ∈ parse_char_position t) :
    t.length = 5 ∧ t[cp.position]? = some cp.char ∧ cp.char ≠ '*' := by
  unfold parse_char_position at h
  by_cases h5 : (t.length != 5) = true
  · rw [if_pos h5] at h; simp at h
  · rw [if_neg h5] at h
    have h5' : t.length = 5 := by simpa using h5
    have hm := (mem_patternPositionsAux cp t 0).mp h
    exact ⟨h5', by simpa using hm.2.1, hm.2.2⟩

lemma mem_parse_different_positions {ts : List (List Char)} {cp : CharPosition}
    (h : cp ∈ parse_different_positions ts) :
    ∃ t ∈ ts, t.length = 5 ∧ t[cp.position]? = some cp.char ∧ cp.char ≠ '*' := by
  induction ts with
  | nil => simp [parse_different_positions] at h
  | cons t rest ih =>
    unfold parse_different_positions at h
    rw [List.mem_append] at h
    rcases h with h | h
    · by_cases h5 : (t.length != 5) = true
      · rw [if_pos h5] at h; simp at h
      · rw [if_neg h5] at h
        have h5' : t.length = 5 := by simpa using h5
        have hm := (mem_patternPositionsAux cp t 0).mp h
        exact ⟨t, List.mem_cons_self t rest, h5', by simpa using hm.2.1, hm.2.2⟩
    · obtain ⟨u, hu, hrest⟩ := ih h
      exact ⟨u, List.mem_cons_of_mem t hu, hrest⟩

/-- Claim C8: pattern parsing is silently lenient: wrong-length patterns
contribute an empty list (`parse_char_position`) or are skipped entirely
(`parse_different_positions`); a length-5 pattern yields one `CharPosition`
per non-`*` character, carrying that character and its zero-based index, and
`*` is never turned into a `CharPosition`. -/
theorem claim_C8 :
    (∀ t : List Char, t.length ≠ 5 → parse_char_position t = []) ∧
    (∀ (t : List Char) (ts : List (List Char)), t.length ≠ 5 →
        parse_different_positions (t :: ts) = parse_different_positions ts) ∧
    (∀ (t : List Char) (ts : List (List Char)), t.length = 5 →
        parse_different_positions (t :: ts) =
          parse_char_position t ++ parse_different_positions ts) ∧
    (∀ t : List Char, t.length = 5 →
        (∀ cp : CharPosition, cp ∈ parse_char_position t ↔
            (t[cp.position]? = some cp.char ∧ cp.char ≠ '*')) ∧
        (parse_char_position t).length = (t.filter fun c => c != '*').length) ∧
    (∀ (t : List Char) (cp : CharPosition), cp ∈ parse_char_position t → cp.char ≠ '*') ∧
    (∀ (ts : List (List Char)) (cp : CharPosition),
        cp ∈ parse_different_positions ts → cp.char ≠ '*') := by
  have hne : ∀ t : List Char, t.length ≠ 5 → (t.length != 5) = true := by
    intro t h; simpa using h
  have heq : ∀ t : List Char, t.length = 5 → (t.length != 5) = false := by
    intro t h; simp [h]
  refine ⟨?_, ?_, ?_, ?_, ?_, ?_⟩
  · intro t h
    unfold parse_char_position
    rw [if_pos (hne t h)]
  · intro t ts h
    simp only [parse_different_positions]
    rw [hne t h]
    simp
  · intro t ts h
    simp only [parse_different_positions]
    unfold parse_char_position
    rw [heq t h]
  · intro t h
    constructor
    · intro cp
      constructor
      · intro hm
        exact (mem_parse_char_position hm).2
      · rintro ⟨hget, hstar⟩
        unfold parse_char_position
        rw [heq t h]
        simp only [Bool.false_eq_true, if_false]
        rw [mem_patternPositionsAux]
        exact ⟨Nat.zero_le _, by simpa using hget, hstar⟩
    · unfold parse_char_position
      rw [heq t h]
      simp only [Bool.false_eq_true, if_false]
      exact length_patternPositionsAux t 0
  · intro t cp hm
    exact (mem_parse_char_position hm).2.2
  · intro ts cp hm
    obtain ⟨t, -, -, -, hstar⟩ := mem_parse_different_positions hm
    exact hstar

theorem claim_C8_witness :
    parse_char_position ['a', 'b', 'c'] = [] ∧
    parse_different_positions [['a', 'b', 'c'], ['x', '*', '*', '*', 'y']] =
      parse_different_positions [['x', '*', '*', '*', 'y']] ∧
    ((⟨'d', 0⟩ : CharPosition) ∈ parse_char_position ['d', '*', '*', '*', 'e']) :=
  ⟨claim_C8.1 ['a', 'b', 'c'] (by decide),
   claim_C8.2.1 ['a', 'b', 'c'] [['x', '*', '*', '*', 'y']] (by decide),
   ((claim_C8.2.2.2.1 ['d', '*', '*', '*', 'e'] (by decide)).1 ⟨'d', 0⟩).mpr (by decide)⟩

/-- Claim C9: every `CharPosition` produced by the parsers has its position
in `[0, 5)`, the bound required by the data model. -/
theorem claim_C9 :
    (∀ (t : List Char) (cp : CharPosition), cp ∈ parse_char_position t → cp.position < 5) ∧
    (∀ (ts : List (List Char)) (cp : CharPosition),
        cp ∈ parse_different_positions ts → cp.position < 5) := by
  constructor
  · intro t cp hm
    obtain ⟨h5, hget, -⟩ := mem_parse_char_position hm
    have := (List.getElem?_eq_some.mp hget).1
    omega
  · intro ts cp hm
    obtain ⟨t, -, h5, hget, -⟩ := mem_parse_different_positions hm
    have := (List.getElem?_eq_some.mp hget).1
    omega

theorem claim_C9_witness :
    (⟨'d', 0⟩ : CharPosition).position < 5 :=
  claim_C9.1 ['d', '*', '*', '*', 'e'] ⟨'d', 0⟩ (by decide)

/-! ### C5: the top-K drain budget -/

lemma emitLoop_length : ∀ (l : List WordScore) (K : Nat),
    (emitLoop (K : Int) l).length = min K l.length := by
  intro l
  induction l with
  | nil => intro K; simp [emitLoop]
  | cons ws rest ih =>
    intro K
    cases K with
    | zero => simp [emitLoop]
    | succ K' =>
      have hpos : ¬(((K' + 1 : Nat) : Int) ≤ 0) := by omega
      simp only [emitLoop]
      rw [if_neg hpos]
      have hcast : ((K' + 1 : Nat) : Int) - 1 = ((K' : Nat) : Int) := by push_cast; ring
      rw [List.length_cons, hcast, ih K']
      simp only [List.length_cons]
      omega

lemma emitLoop_all : ∀ (l : List WordScore) (K : Nat), l.length ≤ K →
    emitLoop (K : Int) l = l.map WordScore.word := by
  intro l
  induction l with
  | nil => intro K _; simp [emitLoop]
  | cons ws rest ih =>
    intro K hK
    cases K with
    | zero => simp at hK
    | succ K' =>
      have hpos : ¬(((K' + 1 : Nat) : Int) ≤ 0) := by omega
      simp only [emitLoop]
      rw [if_neg hpos]
      have hcast : ((K' + 1 : Nat) : Int) - 1 = ((K' : Nat) : Int) := by push_cast; ring
      rw [List.map_cons, hcast, ih K' (by simp only [List.length_cons] at hK; omega)]

/-- Claim C5: the score-sorted drain with requested count `K` over `N`
collected words emits exactly `min(K, N)` words in heap order: nothing when
`K = 0`, and every collected word when `N ≤ K`. -/
theorem claim_C5 (K : Nat) (l : List WordScore) :
    (scoreSortOutput K l).length = min K l.length ∧
    (K = 0 → scoreSortOutput K l = []) ∧
    (l.length ≤ K → scoreSortOutput K l = (heapDrain l).map WordScore.word) := by
  have hlen : (heapDrain l).length = l.length :=
    (List.perm_insertionSort _ l).length_eq
  refine ⟨?_, ?_, ?_⟩
  · rw [scoreSortOutput, emitLoop_length, hlen]
  · rintro rfl
    rw [scoreSortOutput]
    cases hd : heapDrain l with
    | nil => rfl
    | cons a as1 => simp [emitLoop]
  · intro hK
    rw [scoreSortOutput]
    exact emitLoop_all (heapDrain l) K (by omega)

theorem claim_C5_witness :
    scoreSortOutput 0 [WordScore.mk ['a'] 3] = [] ∧
    scoreSortOutput 2 [WordScore.mk ['a'] 3] =
      (heapDrain [WordScore.mk ['a'] 3]).map WordScore.word :=
  ⟨(claim_C5 0 [WordScore.mk ['a'] 3]).2.1 rfl,
   (claim_C5 2 [WordScore.mk ['a'] 3]).2.2 (by decide)⟩

/-! ### C10: safety of the letter-to-index computation -/

lemma asciiLower_toNat (c : Char) :
    (asciiLower c).toNat =
      if 65 ≤ c.toNat ∧ c.toNat ≤ 90 then c.toNat + 32 else c.toNat := by
  unfold asciiLower
  by_cases h : 65 ≤ c.toNat ∧ c.toNat ≤ 90
  · have hb : (65 ≤ c.toNat && c.toNat ≤ 90) = true := by
      simp [h.1, h.2]
    rw [if_pos hb, if_pos h]
    exact char_toNat_ofNat (by omega)
  · have hb : ¬((65 ≤ c.toNat && c.toNat ≤ 90) = true) := by simpa using h
    rw [if_neg hb, if_neg h]

lemma alpha_lower_range {c : Char} (hc : isAsciiAlpha c = true) :
    97 ≤ (asciiLower c).toNat ∧ (asciiLower c).toNat ≤ 122 := by
  have hc' : (97 ≤ c.toNat ∧ c.toNat ≤ 122) ∨ (65 ≤ c.toNat ∧ c.toNat ≤ 90) := by
    simpa [isAsciiAlpha] using hc
  rw [asciiLower_toNat]
  rcases hc' with ⟨h1, h2⟩ | ⟨h1, h2⟩
  · rw [if_neg (by omega)]; omega
  · rw [if_pos ⟨h1, h2⟩]; omega

/-- Claim C10: for ASCII-alphabetic characters the letter-to-index computation
lands in `[0, 26)`, so the unchecked frequency accesses are in bounds; the
filter does not enforce this, since it accepts the word `"ab-cd"` whose
hyphen maps to an out-of-range index (the machine subtraction underflows). -/
theorem claim_C10 :
    (∀ c : Char, isAsciiAlpha c = true →
        (0 ≤ letterIdx c ∧ letterIdx c < 26 ∧ letterIdx c = (letterIdxNat c : Int))) ∧
    ((Filter.new [] [] []).accept ['a', 'b', '-', 'c', 'd'] = true ∧
      ¬(0 ≤ letterIdx '-' ∧ letterIdx '-' < 26)) := by
  constructor
  · intro c hc
    have hr := alpha_lower_range hc
    unfold letterIdx letterIdxNat
    omega
  · exact ⟨by decide, by decide⟩

theorem claim_C10_witness :
    0 ≤ letterIdx 'a' ∧ letterIdx 'a' < 26 ∧ letterIdx 'a' = (letterIdxNat 'a' : Int) :=
  claim_C10.1 'a' (by decide)

/-! ### Comparator lemmas -/

lemma then_swap (a b : Ordering) : (a.then b).swap = a.swap.then b.swap := by
  cases a <;> rfl

lemma natCmp_swap (a b : Nat) : natCmp b a = (natCmp a b).swap := by
  unfold natCmp
  split_ifs <;> first | rfl | (exfalso; omega)

lemma natCmp_eq_lt {a b : Nat} : natCmp a b = .lt ↔ a < b := by
  unfold natCmp
  split_ifs with h1 h2
  · simp [h1]
  · constructor
    · intro h; cases h
    · intro h; exfalso; omega
  · constructor
    · intro h; cases h
    · intro h; exfalso; omega

lemma natCmp_eq_eq {a b : Nat} : natCmp a b = .eq ↔ a = b := by
  unfold natCmp
  split_ifs with h1 h2
  · constructor
    · intro h; cases h
    · intro h; exfalso; omega
  · constructor
    · intro h; cases h
    · intro h; exfalso; omega
  · constructor
    · intro _; omega
    · intro _; rfl

lemma natCmp_eq_gt {a b : Nat} : natCmp a b = .gt ↔ b < a := by
  unfold natCmp
  split_ifs with h1 h2
  · constructor
    · intro h; cases h
    · intro h; exfalso; omega
  · simp [h2]
  · constructor
    · intro h; cases h
    · intro h; exfalso; omega

lemma charCmp_swap (a b : Char) : charCmp b a = (charCmp a b).swap := by
  unfold charCmp
  split_ifs <;> first | rfl | (exfalso; omega)

lemma charCmp_eq_lt {a b : Char} : charCmp a b = .lt ↔ a.toNat < b.toNat := by
  unfold charCmp
  split_ifs with h1 h2
  · simp [h1]
  · constructor
    · intro h; cases h
    · intro h; exfalso; omega
  · constructor
    · intro h; cases h
    · intro h; exfalso; omega

lemma charCmp_eq_gt {a b : Char} : charCmp a b = .gt ↔ b.toNat < a.toNat := by
  unfold charCmp
  split_ifs with h1 h2
  · constructor
    · intro h; cases h
    · intro h; exfalso; omega
  · simp [h2]
  · constructor
    · intro h; cases h
    · intro h; exfalso; omega

lemma charCmp_eq_eq {a b : Char} : charCmp a b = .eq ↔ a.toNat = b.toNat := by
  unfold charCmp
  split_ifs with h1 h2
  · constructor
    · intro h; cases h
    · intro h; exfalso; omega
  · constructor
    · intro h; cases h
    · intro h; exfalso; omega
  · constructor
    · intro _; omega
    · intro _; rfl

lemma listCmp_swap : ∀ (a b : List Char), listCmp b a = (listCmp a b).swap := by
  intro a
  induction a with
  | nil => intro b; cases b <;> rfl
  | cons x xs ih =>
    intro b
    cases b with
    | nil => rfl
    | cons y ys =>
      show (charCmp y x).then (listCmp ys xs) = ((charCmp x y).then (listCmp xs ys)).swap
      rw [charCmp_swap x y, ih ys, then_swap]

lemma listCmp_le_trans : ∀ {a b c : List Char},
    listCmp a b ≠ .gt → listCmp b c ≠ .gt → listCmp a c ≠ .gt := by
  intro a
  induction a with
  | nil =>
    intro b c _ _
    cases c <;> simp [listCmp]
  | cons x xs ih =>
    intro b c h1 h2
    cases b with
    | nil => simp [listCmp] at h1
    | cons y ys =>
      cases c with
      | nil => simp [listCmp] at h2
      | cons z zs =>
        simp only [listCmp] at h1 h2 ⊢
        cases hxy : charCmp x y with
        | gt => rw [hxy] at h1; exact absurd rfl h1
        | lt =>
          cases hyz : charCmp y z with
          | gt => rw [hyz] at h2; exact absurd rfl h2
          | lt =>
            have hxz : charCmp x z = .lt := by
              rw [charCmp_eq_lt]
              have := charCmp_eq_lt.mp hxy
              have := charCmp_eq_lt.mp hyz
              omega
            rw [hxz]
            simp [Ordering.then]
          | eq =>
            have hxz : charCmp x z = .lt := by
              rw [charCmp_eq_lt]
              have := charCmp_eq_lt.mp hxy
              have := charCmp_eq_eq.mp hyz
              omega
            rw [hxz]
            simp [Ordering.then]
        | eq =>
          cases hyz : charCmp y z with
          | gt => rw [hyz] at h2; exact absurd rfl h2
          | lt =>
            have hxz : charCmp x z = .lt := by
              rw [charCmp_eq_lt]
              have := charCmp_eq_eq.mp hxy
              have := charCmp_eq_lt.mp hyz
              omega
            rw [hxz]
            simp [Ordering.then]
          | eq =>
            have hxz : charCmp x z = .eq := by
              rw [charCmp_eq_eq]
              have := charCmp_eq_eq.mp hxy
              have := charCmp_eq_eq.mp hyz
              omega
            rw [hxz]
            rw [hxy] at h1
            rw [hyz] at h2
            simp only [Ordering.then] at h1 h2 ⊢
            exact ih h1 h2

lemma wsCmp_not_lt_iff (a b : WordScore) :
    (wsCmp a b ≠ .lt) ↔
      (b.score < a.score ∨ (a.score = b.score ∧ listCmp a.word b.word ≠ .gt)) := by
  unfold wsCmp
  cases hs : natCmp a.score b.score with
  | lt =>
    have hlt := natCmp_eq_lt.mp hs
    simp only [Ordering.then]
    constructor
    · intro h; exact absurd rfl h
    · rintro (h | ⟨h, -⟩) <;> (exfalso; omega)
  | eq =>
    have heq := natCmp_eq_eq.mp hs
    simp only [Ordering.then]
    cases hl : listCmp a.word b.word with
    | lt => simp [Ordering.swap, heq]
    | eq => simp [Ordering.swap, heq]
    | gt =>
      simp only [Ordering.swap]
      constructor
      · intro h; exact absurd rfl h
      · rintro (h | ⟨-, h⟩)
        · exfalso; omega
        · exact absurd rfl h
  | gt =>
    have hgt := natCmp_eq_gt.mp hs
    simp only [Ordering.then]
    constructor
    · intro _; exact Or.inl hgt
    · intro _ h; cases h

lemma wsLe_total : ∀ a b : WordScore, wsCmp a b ≠ .lt ∨ wsCmp b a ≠ .lt := by
  intro a b
  rw [wsCmp_not_lt_iff, wsCmp_not_lt_iff]
  rcases Nat.lt_trichotomy a.score b.score with h | h | h
  · right; left; exact h
  · cases hl : listCmp a.word b.word with
    | lt => left; right; exact ⟨h, by simp [hl]⟩
    | eq => left; right; exact ⟨h, by simp [hl]⟩
    | gt =>
      right; right
      refine ⟨h.symm, ?_⟩
      rw [listCmp_swap, hl]
      simp [Ordering.swap]
  · left; left; exact h

lemma wsLe_trans : ∀ a b c : WordScore,
    wsCmp a b ≠ .lt → wsCmp b c ≠ .lt → wsCmp a c ≠ .lt := by
  intro a b c h1 h2
  rw [wsCmp_not_lt_iff] at h1 h2 ⊢
  rcases h1 with h1 | ⟨h1e, h1l⟩ <;> rcases h2 with h2 | ⟨h2e, h2l⟩
  · left; omega
  · left; omega
  · left; omega
  · right; exact ⟨by omega, listCmp_le_trans h1l h2l⟩

/-! ### C2: drain order of the score-sorted selection -/

/-- Claim C2 (amended): draining the top-K selection emits a permutation of the
collected words, highest score first; among equal scores the lexicographically
earlier (smaller) word is emitted before the later (greater) one, because the
comparator's secondary key is reverse-lexicographic and the heap pops its
maximum. -/
theorem claim_C2 (l : List WordScore) :
    (heapDrain l).Perm l ∧
    (heapDrain l).Sorted (fun a b =>
      b.score < a.score ∨ (a.score = b.score ∧ listCmp a.word b.word ≠ Ordering.gt)) := by
  constructor
  · exact List.perm_insertionSort _ l
  · haveI : IsTotal WordScore (fun a b => wsCmp a b ≠ Ordering.lt) := ⟨wsLe_total⟩
    haveI : IsTrans WordScore (fun a b => wsCmp a b ≠ Ordering.lt) := ⟨wsLe_trans⟩
    have hs := List.sorted_insertionSort (fun a b => wsCmp a b ≠ Ordering.lt) l
    exact List.Pairwise.imp (fun h => (wsCmp_not_lt_iff _ _).mp h) hs

/-- Counterexample to claim C2 as stated: with the test frequency table,
`"abc"` and `"cba"` tie on score 5, yet the drain emits `"abc"` (the
lexicographically earlier word) before `"cba"`. -/
theorem claim_C2_counterexample :
    (heapDrain [WordScore.new ['a', 'b', 'c'] freqABC,
                WordScore.new ['c', 'b', 'a'] freqABC,
                WordScore.new ['b', 'c', 'd'] freqABC]).map WordScore.word =
      [['a', 'b', 'c'], ['c', 'b', 'a'], ['b', 'c', 'd']] ∧
    (WordScore.new ['a', 'b', 'c'] freqABC).score =
      (WordScore.new ['c', 'b', 'a'] freqABC).score ∧
    listCmp ['a', 'b', 'c'] ['c', 'b', 'a'] = Ordering.lt := by
  decide

/-! ### C3: order of the ranked frequency listing -/

lemma entryCmp_not_gt_iff (a b : Nat × Nat) :
    (entryCmp a b ≠ .gt) ↔ (b.2 < a.2 ∨ (a.2 = b.2 ∧ a.1 ≤ b.1)) := by
  unfold entryCmp
  cases hs : natCmp a.2 b.2 with
  | lt =>
    have hlt := natCmp_eq_lt.mp hs
    simp only [Ordering.then, Ordering.swap]
    constructor
    · intro h; exact absurd rfl h
    · rintro (h | ⟨h, -⟩) <;> (exfalso; omega)
  | gt =>
    have hgt := natCmp_eq_gt.mp hs
    simp only [Ordering.then, Ordering.swap]
    constructor
    · intro _; exact Or.inl hgt
    · intro _ h; cases h
  | eq =>
    have heq := natCmp_eq_eq.mp hs
    simp only [Ordering.then]
    cases hi : natCmp a.1 b.1 with
    | lt =>
      have := natCmp_eq_lt.mp hi
      simp only [Ordering.swap]
      constructor
      · intro _; exact Or.inr ⟨heq, by omega⟩
      · intro _ h; cases h
    | eq =>
      have := natCmp_eq_eq.mp hi
      simp only [Ordering.swap]
      constructor
      · intro _; exact Or.inr ⟨heq, by omega⟩
      · intro _ h; cases h
    | gt =>
      have := natCmp_eq_gt.mp hi
      simp only [Ordering.swap]
      constructor
      · intro h; exact absurd rfl h
      · rintro (h | ⟨-, h⟩) <;> (exfalso; omega)

lemma entryLe_total : ∀ a b : Nat × Nat, entryCmp a b ≠ .gt ∨ entryCmp b a ≠ .gt := by
  intro a b
  rw [entryCmp_not_gt_iff, entryCmp_not_gt_iff]
  rcases Nat.lt_trichotomy a.2 b.2 with h | h | h
  · right; left; exact h
  · rcases Nat.le_total a.1 b.1 with h1 | h1
    · left; right; exact ⟨h, h1⟩
    · right; right; exact ⟨h.symm, h1⟩
  · left; left; exact h

lemma entryLe_trans : ∀ a b c : Nat × Nat,
    entryCmp a b ≠ .gt → entryCmp b c ≠ .gt → entryCmp a c ≠ .gt := by
  intro a b c h1 h2
  rw [entryCmp_not_gt_iff] at h1 h2 ⊢
  rcases h1 with h1 | ⟨h1e, h1l⟩ <;> rcases h2 with h2 | ⟨h2e, h2l⟩
  · left; omega
  · left; omega
  · left; omega
  · right; exact ⟨by omega, by omega⟩

lemma charOfIdx_le : ∀ i < 26, ∀ j < 26, i ≤ j → charOfIdx i ≤ charOfIdx j := by
  decide

lemma toVecEntries_mem_bound {f : CharFreq} {p : Nat × Nat}
    (hp : p ∈ f.toVecEntries) :
    p.1 < f.inner.length ∧ f.inner[p.1]? = some p.2 := by
  have hmem : p ∈ f.inner.enum :=
    (List.perm_insertionSort (fun a b => entryCmp a b ≠ Ordering.gt) f.inner.enum).mem_iff.mp hp
  have hget := List.mem_enum_iff_getElem?.mp hmem
  exact ⟨(List.getElem?_eq_some.mp hget).1, hget⟩

/-- Claim C3 (amended): `to_vec` returns all 26 (letter, count) pairs ordered
by descending count, with ties among equal counts broken by ascending letter
(among equal counts `'a'` sorts before `'z'`). -/
theorem claim_C3 (f : CharFreq) (h26 : f.inner.length = 26) :
    (CharFreq.to_vec f).Perm
      (((List.range 26).zip f.inner).map fun p => (charOfIdx p.1, p.2)) ∧
    (CharFreq.to_vec f).Sorted
      (fun p q => q.2 < p.2 ∨ (p.2 = q.2 ∧ p.1 ≤ q.1)) := by
  constructor
  · unfold CharFreq.to_vec
    refine List.Perm.map _ ?_
    have hperm : (CharFreq.toVecEntries f).Perm f.inner.enum :=
      List.perm_insertionSort (fun a b => entryCmp a b ≠ Ordering.gt) f.inner.enum
    rw [List.enum_eq_zip_range, h26] at hperm
    exact hperm
  · unfold CharFreq.to_vec
    haveI : IsTotal (Nat × Nat) (fun a b => entryCmp a b ≠ Ordering.gt) := ⟨entryLe_total⟩
    haveI : IsTrans (Nat × Nat) (fun a b => entryCmp a b ≠ Ordering.gt) := ⟨entryLe_trans⟩
    have hs := List.sorted_insertionSort (fun a b => entryCmp a b ≠ Ordering.gt) f.inner.enum
    refine List.pairwise_map.mpr (List.Pairwise.imp_of_mem ?_ hs)
    intro a b ha hb hab
    have ha' : a ∈ CharFreq.toVecEntries f := ha
    have hb' : b ∈ CharFreq.toVecEntries f := hb
    have hai := (toVecEntries_mem_bound ha').1
    have hbi := (toVecEntries_mem_bound hb').1
    rcases (entryCmp_not_gt_iff a b).mp hab with h | ⟨he, hle⟩
    · exact Or.inl h
    · exact Or.inr ⟨he, charOfIdx_le a.1 (by omega) b.1 (by omega) hle⟩

theorem claim_C3_witness :
    (CharFreq.to_vec freqABC).Perm
      (((List.range 26).zip freqABC.inner).map fun p => (charOfIdx p.1, p.2)) ∧
    (CharFreq.to_vec freqABC).Sorted
      (fun p q => q.2 < p.2 ∨ (p.2 = q.2 ∧ p.1 ≤ q.1)) :=
  claim_C3 freqABC (by decide)

/-- Counterexample to claim C3 as stated: with counts a ↦ 3, b ↦ 1, c ↦ 1 the
listing places `('b', 1)` before `('c', 1)` — ascending letter among the tied
counts — so it is not sorted by the claimed descending-letter tie-break. -/
theorem claim_C3_counterexample :
    CharFreq.to_vec freqABC =
      [('a', 3), ('b', 1), ('c', 1), ('d', 0), ('e', 0), ('f', 0), ('g', 0), ('h', 0),
       ('i', 0), ('j', 0), ('k', 0), ('l', 0), ('m', 0), ('n', 0), ('o', 0), ('p', 0),
       ('q', 0), ('r', 0), ('s', 0), ('t', 0), ('u', 0), ('v', 0), ('w', 0), ('x', 0),
       ('y', 0), ('z', 0)] ∧
    ¬(CharFreq.to_vec freqABC).Sorted
      (fun p q => q.2 < p.2 ∨ (p.2 = q.2 ∧ q.1 ≤ p.1)) := by
  decide

/-! ### C4: word score as a sum over distinct letters -/

lemma sum_dedup_toFinset (l : List Nat) (g : Nat → Nat) :
    (l.dedup.map g).sum = ∑ i in l.toFinset, g i :=
  rfl

lemma list_toFinset_map (l : List Char) (g : Char → Nat) :
    (l.map g).toFinset = l.toFinset.image g := by
  ext x
  simp

lemma asciiLower_fix {c : Char} (h : ¬(65 ≤ c.toNat ∧ c.toNat ≤ 90)) :
    asciiLower c = c := by
  unfold asciiLower
  rw [if_neg (by simpa using h)]

lemma asciiLower_idem (c : Char) : asciiLower (asciiLower c) = asciiLower c := by
  by_cases h : 65 ≤ c.toNat ∧ c.toNat ≤ 90
  · apply asciiLower_fix
    rw [asciiLower_toNat, if_pos h]
    omega
  · rw [asciiLower_fix h]
    exact asciiLower_fix h

lemma letterIdxNat_asciiLower (c : Char) :
    letterIdxNat (asciiLower c) = letterIdxNat c := by
  unfold letterIdxNat
  rw [asciiLower_idem]

lemma char_toNat_inj {a b : Char} (h : a.toNat = b.toNat) : a = b :=
  Char.ext_iff.mpr (UInt32.ext h)

/-- Claim C4: for every all-ASCII-letter word and every frequency table, the
score is the sum of the frequency over the set of distinct (case-folded)
letters present — repeated letters count once; in particular with counts
a ↦ 3, b ↦ 1, c ↦ 1 the word `"aaaaaaabc"` scores 5. -/
theorem claim_C4 :
    (∀ (f : CharFreq) (w : List Char), (∀ c ∈ w, isAsciiAlpha c = true) →
        calc_score f w = ∑ c in (w.map asciiLower).toFinset, f.get_freq c) ∧
    calc_score freqABC ['a', 'a', 'a', 'a', 'a', 'a', 'a', 'b', 'c'] = 5 := by
  constructor
  · intro f w hw
    unfold calc_score
    rw [sum_dedup_toFinset]
    have hmap : w.map letterIdxNat = (w.map asciiLower).map letterIdxNat := by
      rw [List.map_map]
      exact List.map_congr_left fun c _ => (letterIdxNat_asciiLower c).symm
    have hinj : ∀ x ∈ (w.map asciiLower).toFinset, ∀ y ∈ (w.map asciiLower).toFinset,
        letterIdxNat x = letterIdxNat y → x = y := by
      intro x hx y hy hxy
      obtain ⟨cx, hcx, rfl⟩ := List.mem_map.mp (List.mem_toFinset.mp hx)
      obtain ⟨cy, hcy, rfl⟩ := List.mem_map.mp (List.mem_toFinset.mp hy)
      have hrx := alpha_lower_range (hw cx hcx)
      have hry := alpha_lower_range (hw cy hcy)
      have hfx : asciiLower (asciiLower cx) = asciiLower cx := asciiLower_idem cx
      have hfy : asciiLower (asciiLower cy) = asciiLower cy := asciiLower_idem cy
      unfold letterIdxNat at hxy
      rw [hfx, hfy] at hxy
      exact char_toNat_inj (by omega)
    rw [hmap, list_toFinset_map, Finset.sum_image hinj]
    rfl
  · decide

theorem claim_C4_witness :
    calc_score freqABC ['a', 'b'] =
      ∑ c in ((['a', 'b'].map asciiLower).toFinset), freqABC.get_freq c :=
  claim_C4.1 freqABC ['a', 'b'] (by decide)

/-! ### Decimal rendering and parsing lemmas -/

lemma digitChar_toNat {d : Nat} (h : d < 10) : (digitChar d).toNat = 48 + d := by
  unfold digitChar
  exact char_toNat_ofNat (by omega)

lemma digitChar_isDigit {d : Nat} (h : d < 10) : (digitChar d).isDigit = true := by
  interval_cases d <;> decide

lemma natDigits_ne_nil (n : Nat) : natDigits n ≠ [] := by
  unfold natDigits
  by_cases h : n = 0
  · rw [if_pos h]; simp
  · rw [if_neg h]
    intro hc
    have hlen := congrArg List.length hc
    simp only [List.length_map, List.length_reverse, List.length_nil] at hlen
    exact (Nat.digits_ne_nil_iff_ne_zero.mpr h) (List.length_eq_zero.mp hlen)

lemma natDigits_all_digit (n : Nat) : (natDigits n).all Char.isDigit = true := by
  unfold natDigits
  by_cases h : n = 0
  · rw [if_pos h]; decide
  · rw [if_neg h]
    rw [List.all_eq_true]
    intro c hc
    rw [List.mem_map] at hc
    obtain ⟨d, hd, rfl⟩ := hc
    rw [List.mem_reverse] at hd
    exact digitChar_isDigit (Nat.digits_lt_base (by norm_num) hd)

lemma foldr_digits_eq_ofDigits :
    ∀ L : List Nat, List.foldr (fun x y => y * 10 + x) 0 L = Nat.ofDigits 10 L := by
  intro L
  induction L with
  | nil => simp [Nat.ofDigits_nil]
  | cons d L ih =>
    rw [List.foldr_cons, ih, Nat.ofDigits_cons]
    ring

lemma foldl_digit_congr :
    ∀ (L : List Nat) (a : Nat), (∀ d ∈ L, d < 10) →
      List.foldl (fun acc d => acc * 10 + ((digitChar d).toNat - 48)) a L =
        List.foldl (fun acc d => acc * 10 + d) a L := by
  intro L
  induction L with
  | nil => intro a _; rfl
  | cons d L ih =>
    intro a hd
    simp only [List.foldl_cons]
    rw [digitChar_toNat (hd d (List.mem_cons_self d L)), Nat.add_sub_cancel_left]
    exact ih _ fun x hx => hd x (List.mem_cons_of_mem d hx)

lemma decodeDigits_natDigits (n : Nat) : decodeDigits (natDigits n) = n := by
  unfold natDigits
  by_cases h : n = 0
  · rw [if_pos h, h]; decide
  · rw [if_neg h]
    unfold decodeDigits
    rw [List.foldl_map,
      foldl_digit_congr _ _ fun d hd =>
        Nat.digits_lt_base (by norm_num) (List.mem_reverse.mp hd)]
    simp only [List.foldl_reverse]
    rw [foldr_digits_eq_ofDigits]
    exact Nat.ofDigits_digits 10 n

/-! ### C7: behaviour of the frequency-file line loader -/

lemma char_isDigit_iff (c : Char) :
    c.isDigit = true ↔ 48 ≤ c.toNat ∧ c.toNat ≤ 57 := by
  simp only [Char.isDigit, Bool.and_eq_true, decide_eq_true_eq, Char.le_def]
  exact Iff.rfl

lemma isDigit_isNd {c : Char} (h : c.isDigit = true) : isNd c = true := by
  have hr := (char_isDigit_iff c).mp h
  unfold isNd
  rw [List.any_eq_true]
  refine ⟨(48, 57), by decide, ?_⟩
  simp only [Bool.and_eq_true, decide_eq_true_eq]
  exact ⟨hr.1, hr.2⟩

lemma all_digit_all_nd {ds : List Char} (h : ds.all Char.isDigit = true) :
    ds.all isNd = true := by
  rw [List.all_eq_true] at h ⊢
  exact fun c hc => isDigit_isNd (h c hc)

lemma regexMatch_line {c : Char} {ds : List Char} (hc : isLowerAlpha c = true)
    (hne : ds ≠ []) (hnd : ds.all isNd = true) :
    regexMatch (c :: ':' :: ds) = some (c, ds) := by
  unfold regexMatch
  have hne' : ds.isEmpty = false := by
    cases ds with
    | nil => exact absurd rfl hne
    | cons d ds => rfl
  simp [hc, hne', hnd]

lemma loadLine_overwrite (g : CharFreq) {c : Char} {ds : List Char}
    (hc : isLowerAlpha c = true) (hne : ds ≠ []) (hdig : ds.all Char.isDigit = true)
    (hlt : decodeDigits ds < 2 ^ 64) :
    loadLine g (c :: ':' :: ds) =
      some ⟨g.inner.set (c.toNat - 97) (decodeDigits ds)⟩ := by
  simp only [loadLine, regexMatch_line hc hne (all_digit_all_nd hdig), parseUsize,
    if_pos (And.intro hdig hlt)]

lemma loadLine_overflow (g : CharFreq) {c : Char} {ds : List Char}
    (hc : isLowerAlpha c = true) (hne : ds ≠ []) (hdig : ds.all Char.isDigit = true)
    (hge : 2 ^ 64 ≤ decodeDigits ds) :
    loadLine g (c :: ':' :: ds) = none := by
  simp only [loadLine, regexMatch_line hc hne (all_digit_all_nd hdig), parseUsize,
    if_neg (show ¬(ds.all Char.isDigit = true ∧ decodeDigits ds < 2 ^ 64) from
      fun h => absurd h.2 (by omega))]

lemma loadLine_invalid_digit (g : CharFreq) {c : Char} {ds : List Char}
    (hc : isLowerAlpha c = true) (hne : ds ≠ []) (hnd : ds.all isNd = true)
    (hnotall : ¬ds.all Char.isDigit = true) :
    loadLine g (c :: ':' :: ds) = none := by
  simp only [loadLine, regexMatch_line hc hne hnd, parseUsize,
    if_neg (show ¬(ds.all Char.isDigit = true ∧ decodeDigits ds < 2 ^ 64) from
      fun h => hnotall h.1)]

lemma loadLine_skip (g : CharFreq) {line : List Char}
    (h : regexMatch line = none) : loadLine g line = some g := by
  simp only [loadLine, h]

/-- Claim C7 (amended): `from_file` processes lines independently; a line
matching `^[a-z]:\d+$` (with `\d` the Unicode class `\p{Nd}`) whose digits are
all ASCII and whose count fits in `usize` overwrites that letter's count with
the parsed integer (a full overwrite, not an accumulation); a matching line
whose count overflows `usize`, or whose digits include a non-ASCII `\p{Nd}`
digit, panics in the `expect` of `str::parse::<usize>` instead of overwriting;
every non-matching line is silently skipped, leaving the prior counts
unchanged. -/
theorem claim_C7 :
    (∀ (g : CharFreq) (c : Char) (ds : List Char),
        isLowerAlpha c = true → ds ≠ [] → ds.all Char.isDigit = true →
        decodeDigits ds < 2 ^ 64 →
        loadLine g (c :: ':' :: ds) =
          some ⟨g.inner.set (c.toNat - 97) (decodeDigits ds)⟩) ∧
    (∀ (g : CharFreq) (c : Char) (ds : List Char),
        isLowerAlpha c = true → ds ≠ [] → ds.all Char.isDigit = true →
        2 ^ 64 ≤ decodeDigits ds →
        loadLine g (c :: ':' :: ds) = none) ∧
    (∀ (g : CharFreq) (c : Char) (ds : List Char),
        isLowerAlpha c = true → ds ≠ [] → ds.all isNd = true →
        ¬ds.all Char.isDigit = true →
        loadLine g (c :: ':' :: ds) = none) ∧
    (∀ (g : CharFreq) (line : List Char),
        regexMatch line = none → loadLine g line = some g) :=
  ⟨fun g _ _ hc hne hdig hlt => loadLine_overwrite g hc hne hdig hlt,
   fun g _ _ hc hne hdig hge => loadLine_overflow g hc hne hdig hge,
   fun g _ _ hc hne hnd hnotall => loadLine_invalid_digit g hc hne hnd hnotall,
   fun g _ h => loadLine_skip g h⟩

theorem claim_C7_witness :
    loadLine CharFreq.new ['a', ':', '7'] =
      some ⟨CharFreq.new.inner.set ('a'.toNat - 97) (decodeDigits ['7'])⟩ ∧
    loadLine CharFreq.new ['b', ':', '١'] = none ∧
    loadLine CharFreq.new ['x', 'y'] = some CharFreq.new :=
  ⟨claim_C7.1 CharFreq.new 'a' ['7'] (by decide) (by decide) (by decide) (by decide),
   claim_C7.2.2.1 CharFreq.new 'b' ['١'] (by decide) (by decide) (by decide) (by decide),
   claim_C7.2.2.2 CharFreq.new ['x', 'y'] (by decide)⟩

/-- Counterexample to claim C7 as stated: the line `a:18446744073709551616`
matches `^[a-z]:\d+$` but its count is `2 ^ 64`, which does not fit in
`usize`; and the line `a:١` (Arabic-Indic digit one, U+0661) also matches the
Unicode-aware regex but is not an ASCII numeral.  In both cases the load
panics (`none`) instead of overwriting, so not every matching line overwrites
and an error is raised. -/
theorem claim_C7_counterexample :
    (regexMatch ['a', ':', '1', '8', '4', '4', '6', '7', '4', '4', '0', '7', '3',
        '7', '0', '9', '5', '5', '1', '6', '1', '6']).isSome = true ∧
    decodeDigits ['1', '8', '4', '4', '6', '7', '4', '4', '0', '7', '3', '7', '0',
        '9', '5', '5', '1', '6', '1', '6'] = 2 ^ 64 ∧
    CharFreq.from_lines [['a', ':', '1', '8', '4', '4', '6', '7', '4', '4', '0',
        '7', '3', '7', '0', '9', '5', '5', '1', '6', '1', '6']] = none ∧
    (regexMatch ['a', ':', '١']).isSome = true ∧
    CharFreq.from_lines [['a', ':', '١']] = none := by
  decide

/-! ### C6: save/load round trip -/

lemma charOfIdx_lower : ∀ i < 26, isLowerAlpha (charOfIdx i) = true := by
  decide

lemma charOfIdx_toNat_sub : ∀ i < 26, (charOfIdx i).toNat - 97 = i := by
  decide

lemma loadLine_encode {g : CharFreq} {c : Char} (hc : isLowerAlpha c = true)
    {n : Nat} (hn : n < 2 ^ 64) :
    loadLine g (c :: ':' :: natDigits n) = some ⟨g.inner.set (c.toNat - 97) n⟩ := by
  have h1 := loadLine_overwrite g hc (natDigits_ne_nil n)
    (natDigits_all_digit n) (by rw [decodeDigits_natDigits]; exact hn)
  rw [decodeDigits_natDigits] at h1
  exact h1

lemma from_lines_encoded :
    ∀ (ps : List (Nat × Nat)) (g : CharFreq),
      (∀ p ∈ ps, p.1 < 26 ∧ p.2 < 2 ^ 64) →
      List.foldlM loadLine g (ps.map fun p => encodeLine (charOfIdx p.1, p.2)) =
        some ⟨ps.foldl (fun acc p => acc.set p.1 p.2) g.inner⟩ := by
  intro ps
  induction ps with
  | nil => intro g _; rfl
  | cons p ps ih =>
    intro g hp
    have h1 := hp p (List.mem_cons_self p ps)
    rw [List.map_cons, List.foldlM_cons,
      show encodeLine (charOfIdx p.1, p.2) = charOfIdx p.1 :: ':' :: natDigits p.2 from rfl,
      loadLine_encode (charOfIdx_lower p.1 h1.1) h1.2]
    show List.foldlM loadLine
        (⟨g.inner.set ((charOfIdx p.1).toNat - 97) p.2⟩ : CharFreq) _ = _
    rw [charOfIdx_toNat_sub p.1 h1.1, List.foldl_cons]
    exact ih ⟨g.inner.set p.1 p.2⟩ fun q hq => hp q (List.mem_cons_of_mem p hq)

lemma foldl_set_not_mem :
    ∀ (ps : List (Nat × Nat)) (z : List Nat) (i : Nat),
      (∀ p ∈ ps, p.1 ≠ i) →
      (ps.foldl (fun acc p => acc.set p.1 p.2) z)[i]? = z[i]? := by
  intro ps
  induction ps with
  | nil => intro z i _; rfl
  | cons p ps ih =>
    intro z i hne
    rw [List.foldl_cons, ih _ i fun q hq => hne q (List.mem_cons_of_mem p hq)]
    exact List.getElem?_set_ne (hne p (List.mem_cons_self p ps))

lemma foldl_set_mem :
    ∀ (ps : List (Nat × Nat)) (z : List Nat) (i n : Nat),
      (ps.map Prod.fst).Nodup → (i, n) ∈ ps → i < z.length →
      (ps.foldl (fun acc p => acc.set p.1 p.2) z)[i]? = some n := by
  intro ps
  induction ps with
  | nil =>
    intro z i n _ hm _
    simp at hm
  | cons p ps ih =>
    intro z i n hnd hm hlen
    rw [List.map_cons, List.nodup_cons] at hnd
    rw [List.foldl_cons]
    rcases List.mem_cons.mp hm with heq | hmem
    · have hp1 : p.1 = i := by rw [← heq]
      have hp2 : p.2 = n := by rw [← heq]
      have hkey : ∀ q ∈ ps, q.1 ≠ i := by
        intro q hq hqi
        have hq1 : q.1 ∈ List.map Prod.fst ps := List.mem_map_of_mem Prod.fst hq
        rw [hqi, ← hp1] at hq1
        exact hnd.1 hq1
      rw [foldl_set_not_mem ps _ i hkey, hp1, hp2]
      exact List.getElem?_set_eq hlen
    · exact ih (z.set p.1 p.2) i n hnd.2 hmem (by simpa using hlen)

lemma toVecEntries_keys_nodup (f : CharFreq) :
    ((f.toVecEntries).map Prod.fst).Nodup := by
  have hperm : (CharFreq.toVecEntries f).Perm f.inner.enum :=
    List.perm_insertionSort (fun a b => entryCmp a b ≠ Ordering.gt) f.inner.enum
  have hp2 := hperm.map Prod.fst
  rw [List.enum_map_fst] at hp2
  exact hp2.nodup_iff.mpr (List.nodup_range _)

lemma toVecEntries_coverage {f : CharFreq} {i : Nat} (hi : i < f.inner.length) :
    ∃ n, (i, n) ∈ f.toVecEntries ∧ f.inner[i]? = some n := by
  have hperm : (CharFreq.toVecEntries f).Perm f.inner.enum :=
    List.perm_insertionSort (fun a b => entryCmp a b ≠ Ordering.gt) f.inner.enum
  refine ⟨f.inner.get ⟨i, hi⟩, ?_, by simp [List.getElem?_eq_getElem hi]⟩
  refine hperm.mem_iff.mpr ?_
  rw [List.mem_enum_iff_getElem?]
  simp [List.getElem?_eq_getElem hi]

/-- Claim C6: serializing a `CharFreq` to the frequency-file line format and
loading the result into a fresh table reproduces every letter's count exactly
(all 26 letters are written, so every count — nonzero or not — matches, and no
letter is left to fall back to its prior value). -/
theorem claim_C6 (f : CharFreq) (h26 : f.inner.length = 26)
    (hbound : ∀ n ∈ f.inner, n < 2 ^ 64) :
    CharFreq.from_lines (serializeLines f) = some f := by
  unfold CharFreq.from_lines serializeLines CharFreq.to_vec
  rw [List.map_map]
  have hprops : ∀ p ∈ f.toVecEntries, p.1 < 26 ∧ p.2 < 2 ^ 64 := by
    intro p hp
    have hb := toVecEntries_mem_bound hp
    exact ⟨by omega, hbound p.2 (List.getElem?_mem hb.2)⟩
  rw [show ((fun p : Char × Nat => encodeLine p) ∘ fun p : Nat × Nat =>
        (charOfIdx p.1, p.2)) = fun p : Nat × Nat => encodeLine (charOfIdx p.1, p.2)
      from rfl]
  rw [from_lines_encoded f.toVecEntries CharFreq.new hprops]
  have hinner : f.toVecEntries.foldl (fun acc p => acc.set p.1 p.2) CharFreq.new.inner
      = f.inner := by
    apply List.ext_getElem?
    intro i
    by_cases hi : i < 26
    · obtain ⟨n, hmem, hget⟩ := toVecEntries_coverage (f := f) (i := i) (by omega)
      rw [foldl_set_mem _ _ i n (toVecEntries_keys_nodup f) hmem
        (by simp [CharFreq.new]; omega)]
      exact hget.symm
    · rw [foldl_set_not_mem _ _ i fun p hp hpi => by
        have := (toVecEntries_mem_bound hp).1
        omega]
      rw [List.getElem?_eq_none (by simp [CharFreq.new]; omega),
        List.getElem?_eq_none (by omega)]
  rw [hinner]

theorem claim_C6_witness :
    CharFreq.from_lines (serializeLines freqABC) = some freqABC :=
  claim_C6 freqABC (by decide) (by decide)

end Wordle
